import Mathlib

/-!
A verification development for the cache admission, indexing, and eviction
engine of the obsidian-image-plugin repository (`src/cacheManager.ts`,
class `CacheManager`).  The TypeScript code is shallowly embedded: JavaScript
numbers holding byte counts, timestamps and counters are modelled as `Int`
(they are exact integers in every code path considered), the in-memory
`Map<string, CachedImage>` is modelled as an insertion-ordered association
list, and the vault adapter (the blob store) is modelled by the list of
paths currently present, with `adapter.remove` failing exactly when the path
is absent (filesystem unlink semantics).  `Math.log` is modelled as
`Real.log`, so the smart-score definitions live over `ℝ`.
-/

/-! ### JavaScript integer helpers

`simpleHash` relies on JavaScript's 32-bit signed integer coercion
(`hash & hash`, `hash << 5`) and on `Math.abs(...).toString(36)`. -/

/-- JavaScript `ToInt32`: reduce an integer modulo `2^32` into
`[-2^31, 2^31)`. -/
def toInt32 (n : Int) : Int :=
  let m := n % 4294967296
  if m < 2147483648 then m else m - 4294967296

/-- Digit character for `Number.prototype.toString(36)`:
`0`-`9` then lowercase `a`-`z`. -/
def base36Digit (d : Nat) : Char :=
  if d < 10 then Char.ofNat (48 + d) else Char.ofNat (87 + d)

/-- Digits of `n` in base 36, most significant first, accumulator style.
The first argument is fuel (structural recursion so that proofs can
evaluate); `natToBase36` supplies enough of it. -/
def natToBase36Go : Nat → Nat → List Char → List Char
  | 0, _, acc => acc
  | fuel + 1, n, acc =>
    if n < 36 then base36Digit n :: acc
    else natToBase36Go fuel (n / 36) (base36Digit (n % 36) :: acc)

/-- JavaScript `n.toString(36)` for a non-negative integer `n`. -/
def natToBase36 (n : Nat) : String :=
  String.mk (natToBase36Go (n + 1) n [])

/-! ### `CacheManager.simpleHash` -/

/-- One iteration of the `simpleHash` loop:
`hash = (hash << 5) - hash + char; hash = hash & hash`.
`hash << 5` coerces to int32 before and after the shift; the subtraction and
addition are exact (the operands are small enough for float64), and
`hash & hash` is the final int32 coercion. -/
def simpleHashStep (hash : Int) (c : Nat) : Int :=
  toInt32 (toInt32 (hash * 32) - hash + c)

/-- The signed 32-bit accumulator computed by `simpleHash`'s loop.
Characters are taken as their code units (`charCodeAt`); the inputs
considered are ASCII, where code units and code points agree. -/
def simpleHashInt (s : String) : Int :=
  s.data.foldl (fun h c => simpleHashStep h c.toNat) 0

/-- `CacheManager.simpleHash`: `Math.abs(hash).toString(36)`. -/
def simpleHash (s : String) : String :=
  natToBase36 (simpleHashInt s).natAbs

/-- `CacheManager.hashUrl`, modelling the crypto-unavailable fallback branch
(`return this.simpleHash(url)`); the `crypto.subtle` branch is an external
platform primitive and the hash text is never interpreted by the cache. -/
def hashUrl (url : String) : String :=
  simpleHash url

/-! ### The platform `URL` constructor

`generateFilename` calls `new URL(url)` and reads `.pathname`.  The URL
constructor is a platform builtin, not repository code; it is modelled here
by a simplified WHATWG-style parser adequate for the inputs considered:
construction throws (returns `none`) when the input has no valid scheme
prefix or an empty authority after `//`; otherwise the pathname is the
`/`-initial part after the authority (defaulting to `"/"`), or the opaque
remainder for scheme-only URLs, truncated at `?` or `#`. -/

/-- Characters allowed in a URL scheme after the initial letter. -/
def isSchemeChar (c : Char) : Bool :=
  c.isAlphanum || c == '+' || c == '-' || c == '.'

/-- Consume scheme characters up to the `:`; `none` when no scheme. -/
def splitSchemeAux : List Char → Option (List Char)
  | [] => none
  | c :: cs => if c = ':' then some cs else if isSchemeChar c then splitSchemeAux cs else none

/-- Split off a `scheme:` prefix, returning what follows the colon. -/
def splitScheme : List Char → Option (List Char)
  | [] => none
  | c :: cs => if c.isAlpha then splitSchemeAux cs else none

/-- `new URL(s).pathname`, or `none` when the constructor throws. -/
def urlPathname (s : String) : Option String :=
  match splitScheme s.data with
  | none => none
  | some rest =>
    if rest.take 2 = ['/', '/'] then
      let afterAuth := rest.drop 2
      let auth := afterAuth.takeWhile (fun c => !(c == '/' || c == '?' || c == '#'))
      if auth.isEmpty then none
      else
        match afterAuth.drop auth.length with
        | '/' :: tail =>
          some (String.mk ('/' :: tail.takeWhile (fun c => !(c == '?' || c == '#'))))
        | _ => some "/"
    else
      some (String.mk (rest.takeWhile (fun c => !(c == '?' || c == '#'))))

/-! ### `CacheManager.generateFilename` -/

/-- One character of JavaScript `String.prototype.split(".")`, folded from
the right: a dot opens a fresh segment, any other character extends the
current one. -/
def splitDotStep (c : Char) (acc : List (List Char)) : List (List Char) :=
  if c = '.' then [] :: acc
  else
    match acc with
    | [] => [[c]]
    | a :: as => (c :: a) :: as

/-- JavaScript `s.split(".")`: always a non-empty list of segments
(`"".split(".")` is `[""]`). -/
def jsSplitDot (s : String) : List String :=
  (s.data.foldr splitDotStep [[]]).map String.mk

/-- `CacheManager.generateFilename`: `pathname.split(".").pop() || "png"`
concatenated after a hash of the full URL.  `split` never yields an empty
array, so `pop()` only falls back to `"png"` when the last segment is the
empty string (the one falsy string).  `none` models the `new URL` throw on a
malformed key. -/
def generateFilename (url : String) : Option String :=
  match urlPathname url with
  | none => none
  | some pathname =>
    let extension :=
      match (jsSplitDot pathname).getLast? with
      | none => "png"
      | some s => if s = "" then "png" else s
    some (simpleHash url ++ "." ++ extension)

example : jsSplitDot "/a.b.png" = ["/a", "b", "png"] := by decide
example : jsSplitDot "/file" = ["/file"] := by decide
example : jsSplitDot "/file." = ["/file", ""] := by decide
example : jsSplitDot "" = [""] := by decide

example : urlPathname "hello" = none := by decide
example : urlPathname "https://a.example/x.png" = some "/x.png" := by decide
example : urlPathname "https://a.example" = some "/" := by decide
example : urlPathname "https://a.example/file" = some "/file" := by decide
example : simpleHash "abc" = natToBase36 96354 := by decide

/-! ### Data model (`src/types.ts`) -/

/-- `CachedImage` from `src/types.ts`; `githubUrl` and `hash` are optional
fields of the interface. -/
structure CachedImage where
  url : String
  localPath : String
  githubUrl : Option String
  size : Int
  createdAt : Int
  lastAccessedAt : Int
  accessCount : Int
  hash : Option String
deriving DecidableEq, Repr

/-- `CacheMetadata` from `src/types.ts`. -/
structure CacheMetadata where
  totalSize : Int
  imageCount : Int
  lastCleanup : Int
  version : String
deriving DecidableEq, Repr

/-- The cache-relevant subset of `ImagePluginSettings` (`src/types.ts`):
the only settings fields the `CacheManager` reads.  `cacheStrategy` is kept
as a plain string, as in `sortByStrategy(candidates, strategy: string)`. -/
structure ImagePluginSettings where
  enableCache : Bool
  maxCacheSize : Int
  cacheProtectionDays : Int
  cacheStrategy : String
deriving DecidableEq, Repr

/-! ### Insertion-ordered association-list maps

`Map<string, V>` iterates in insertion order; `set` of an existing key keeps
its position, `set` of a fresh key appends, `delete` removes the entry. -/

/-- `Map.get`. -/
def alistGet {α : Type} : List (String × α) → String → Option α
  | [], _ => none
  | (k2, v) :: rest, k => if k2 = k then some v else alistGet rest k

/-- `Map.set`: update in place, or append when the key is fresh. -/
def alistSet {α : Type} : List (String × α) → String → α → List (String × α)
  | [], k, v => [(k, v)]
  | (k2, w) :: rest, k, v =>
    if k2 = k then (k2, v) :: rest else (k2, w) :: alistSet rest k v

/-- `Map.delete`: drop the (first) entry with the given key. -/
def alistDelete {α : Type} : List (String × α) → String → List (String × α)
  | [], _ => []
  | (k2, w) :: rest, k => if k2 = k then rest else (k2, w) :: alistDelete rest k

/-! ### Cache manager state

`CacheState` bundles the mutable fields of the `CacheManager` instance
(`settings`, `cacheIndex`, `cacheMetadata`) with the blob store (the set of
paths present in the vault adapter).  `saveCacheIndex` swallows its own
write errors and mutates nothing in memory, so it has no effect on this
state and is not materialized. -/

structure CacheState where
  settings : ImagePluginSettings
  cacheIndex : List (String × CachedImage)
  cacheMetadata : CacheMetadata
  blobs : List String
deriving DecidableEq, Repr

/-- `this.cacheDir`. -/
def cacheDir : String := ".obsidian/plugins/obsidian-image-plugin/cache"

/-- The constructor state of a fresh `CacheManager` instance (`now` is the
`Date.now()` observed by the constructor). -/
def initialState (settings : ImagePluginSettings) (now : Int) : CacheState :=
  { settings := settings
    cacheIndex := []
    cacheMetadata := { totalSize := 0, imageCount := 0, lastCleanup := now, version := "1.0.0" }
    blobs := [] }

/-! ### `CacheManager.remove`

`adapter.remove` is modelled as failing exactly when the path is absent.
The `try` block deletes the blob first; a throw therefore precedes every
metadata/index mutation, and the `catch` returns `false` with the state
untouched. -/

def remove (st : CacheState) (url : String) : Bool × CacheState :=
  match alistGet st.cacheIndex url with
  | none => (false, st)
  | some cached =>
    if cached.localPath ∈ st.blobs then
      (true,
        { st with
          blobs := st.blobs.erase cached.localPath
          cacheMetadata :=
            { st.cacheMetadata with
              totalSize := st.cacheMetadata.totalSize - cached.size
              imageCount := st.cacheMetadata.imageCount - 1 }
          cacheIndex := alistDelete st.cacheIndex url })
    else (false, st)

/-! ### Eviction engine -/

/-- `this.settings.cacheProtectionDays * 24 * 60 * 60 * 1000`. -/
def protectionMs (settings : ImagePluginSettings) : Int :=
  settings.cacheProtectionDays * 24 * 60 * 60 * 1000

/-- `CacheManager.getCleanupCandidates`: every index entry not accessed
within the protection window, in index iteration order. -/
def getCleanupCandidates (st : CacheState) (now : Int) : List CachedImage :=
  (st.cacheIndex.map Prod.snd).filter
    (fun cached => !decide (now - cached.lastAccessedAt < protectionMs st.settings))

/-- `CacheManager.calculateSmartScore`.  JavaScript float arithmetic and
`Math.log` are modelled over `ℝ`. -/
noncomputable def calculateSmartScore (cached : CachedImage) (now : Int) : ℝ :=
  let daysSinceAccess : ℝ := ((now : ℝ) - (cached.lastAccessedAt : ℝ)) / (24 * 60 * 60 * 1000)
  let daysSinceCreation : ℝ := ((now : ℝ) - (cached.createdAt : ℝ)) / (24 * 60 * 60 * 1000)
  let recencyScore := 1000 / (daysSinceAccess + 1)
  let frequencyScore := Real.log ((cached.accessCount : ℝ) + 1) * 100
  let sizePenalty := (cached.size : ℝ) / (1024 * 1024)
  let agePenalty := daysSinceCreation * 2
  recencyScore + frequencyScore - sizePenalty - agePenalty

/-- `CacheManager.sortByStrategy`.  `Array.prototype.sort` with an
`a.f - b.f` comparator is a stable ascending sort, modelled by `mergeSort`;
an unrecognized strategy string falls through the `switch` and leaves the
copied array unsorted. -/
noncomputable def sortByStrategy
    (candidates : List CachedImage) (strategy : String) (now : Int) : List CachedImage :=
  if strategy = "lru" then
    candidates.mergeSort (fun a b => decide (a.lastAccessedAt ≤ b.lastAccessedAt))
  else if strategy = "lfu" then
    candidates.mergeSort (fun a b => decide (a.accessCount ≤ b.accessCount))
  else if strategy = "fifo" then
    candidates.mergeSort (fun a b => decide (a.createdAt ≤ b.createdAt))
  else if strategy = "smart" then
    candidates.mergeSort (fun a b => decide (calculateSmartScore a now ≤ calculateSmartScore b now))
  else candidates

/-- The `for (const cached of sorted)` loop of `CacheManager.cleanup`:
break once `freedBytes >= bytesToFree`, otherwise `remove` the entry and,
on success, add the candidate's `size` to the accumulator. -/
def cleanupLoop (st : CacheState) :
    List CachedImage → Int → Int → Int × CacheState
  | [], _, freedBytes => (freedBytes, st)
  | cached :: rest, bytesToFree, freedBytes =>
    if freedBytes ≥ bytesToFree then (freedBytes, st)
    else
      match remove st cached.url with
      | (success, st2) =>
        cleanupLoop st2 rest bytesToFree
          (if success then freedBytes + cached.size else freedBytes)

/-- `CacheManager.cleanup`: returns the bytes freed and the resulting state
(with `lastCleanup` stamped, except on the `candidates.length === 0` early
return). -/
noncomputable def cleanup (st : CacheState) (now : Int) (bytesToFree : Int) : Int × CacheState :=
  let candidates := getCleanupCandidates st now
  if candidates.length = 0 then (0, st)
  else
    match cleanupLoop st (sortByStrategy candidates st.settings.cacheStrategy now) bytesToFree 0 with
    | (freedBytes, st2) =>
      (freedBytes,
        { st2 with cacheMetadata := { st2.cacheMetadata with lastCleanup := now } })

/-- `CacheManager.checkAndCleanup`: a no-op when caching is disabled, the
ceiling is unlimited (`0`), or the ceiling is not exceeded; otherwise clean
up `totalSize - maxSizeBytes` bytes. -/
noncomputable def checkAndCleanup (st : CacheState) (now : Int) : CacheState :=
  if !st.settings.enableCache then st
  else
    let maxSizeBytes := st.settings.maxCacheSize * 1024 * 1024
    if maxSizeBytes > 0 ∧ st.cacheMetadata.totalSize > maxSizeBytes then
      (cleanup st now (st.cacheMetadata.totalSize - maxSizeBytes)).2
    else st

/-! ### `CacheManager.add`

The `ArrayBuffer` payload is represented by its byte length, the only thing
the cache reads (`data.byteLength`); `adapter.writeBinary` overwrites any
existing blob at the path and is modelled as always succeeding.  A throw of
`new URL` inside `generateFilename` propagates out of `add`
(`Except.error`). -/

noncomputable def add (st : CacheState) (now : Int) (url : String) (dataLen : Nat)
    (githubUrl : Option String) : Except Unit (CachedImage × CacheState) :=
  match generateFilename url with
  | none => Except.error ()
  | some filename =>
    let localPath := cacheDir ++ "/" ++ filename
    let cached : CachedImage :=
      { url := url
        localPath := localPath
        githubUrl := githubUrl
        size := (dataLen : Int)
        createdAt := now
        lastAccessedAt := now
        accessCount := 1
        hash := some (hashUrl url) }
    let st2 : CacheState :=
      { st with
        blobs := if st.blobs.contains localPath then st.blobs else localPath :: st.blobs
        cacheIndex := alistSet st.cacheIndex url cached
        cacheMetadata :=
          { st.cacheMetadata with
            totalSize := st.cacheMetadata.totalSize + cached.size
            imageCount := st.cacheMetadata.imageCount + 1 } }
    Except.ok (cached, checkAndCleanup st2 now)

/-! ### Well-formedness

Invariants every reachable in-memory index satisfies: keys are unique (it
is a `Map`), each entry's `url` field equals its key (`add` stores the
entry under `cached.url`), and sizes are byte counts (`data.byteLength`,
hence non-negative). -/

def WFIndex (st : CacheState) : Prop :=
  (st.cacheIndex.map Prod.fst).Nodup ∧ ∀ p ∈ st.cacheIndex, (p.2).url = p.1

def NonnegSizes (st : CacheState) : Prop :=
  ∀ p ∈ st.cacheIndex, 0 ≤ (p.2).size

instance (st : CacheState) : Decidable (WFIndex st) := by
  unfold WFIndex; infer_instance

instance (st : CacheState) : Decidable (NonnegSizes st) := by
  unfold NonnegSizes; infer_instance

/-- Sum of the `size` fields over the live index entries. -/
def indexSizeSum (st : CacheState) : Int :=
  (st.cacheIndex.map (fun p => (p.2).size)).sum

/-! ### Association-list lemmas -/

theorem alistGet_delete_ne {α : Type} (m : List (String × α)) (u k : String)
    (h : u ≠ k) : alistGet (alistDelete m u) k = alistGet m k := by
  induction m with
  | nil => rfl
  | cons p rest ih =>
    by_cases h1 : p.1 = u
    · have hpk : p.1 ≠ k := fun hpk => h (h1.symm.trans hpk)
      simp [alistDelete, alistGet, h1, hpk, h]
    · simp only [alistDelete, h1, if_false]
      by_cases h2 : p.1 = k <;> simp [alistGet, h2, ih]

theorem alistGet_eq_none_of_not_mem_keys {α : Type} (m : List (String × α)) (k : String)
    (h : k ∉ m.map Prod.fst) : alistGet m k = none := by
  induction m with
  | nil => rfl
  | cons p rest ih =>
    simp only [List.map_cons, List.mem_cons, not_or] at h
    have hpk : p.1 ≠ k := fun e => h.1 e.symm
    simp [alistGet, hpk, ih h.2]

theorem keys_delete_sublist {α : Type} (m : List (String × α)) (u : String) :
    ((alistDelete m u).map Prod.fst).Sublist (m.map Prod.fst) := by
  induction m with
  | nil => simp [alistDelete]
  | cons p rest ih =>
    by_cases h1 : p.1 = u
    · simp only [alistDelete, h1, if_true, List.map_cons]
      exact (List.sublist_cons_self _ _)
    · simp only [alistDelete, h1, if_false, List.map_cons]
      exact ih.cons₂ _

theorem nodup_keys_delete {α : Type} (m : List (String × α)) (u : String)
    (h : (m.map Prod.fst).Nodup) : ((alistDelete m u).map Prod.fst).Nodup :=
  h.sublist (keys_delete_sublist m u)

theorem alistGet_delete_self {α : Type} (m : List (String × α)) (u : String)
    (h : (m.map Prod.fst).Nodup) : alistGet (alistDelete m u) u = none := by
  induction m with
  | nil => rfl
  | cons p rest ih =>
    simp only [List.map_cons, List.nodup_cons] at h
    by_cases h1 : p.1 = u
    · simp only [alistDelete, h1, if_true]
      exact alistGet_eq_none_of_not_mem_keys rest u (h1 ▸ h.1)
    · simp [alistDelete, h1, alistGet, ih h.2]

theorem alistGet_of_mem_nodup {α : Type} (m : List (String × α)) (k : String) (v : α)
    (hn : (m.map Prod.fst).Nodup) (hm : (k, v) ∈ m) : alistGet m k = some v := by
  induction m with
  | nil => cases hm
  | cons p rest ih =>
    simp only [List.map_cons, List.nodup_cons] at hn
    rcases List.mem_cons.mp hm with h | h
    · subst h; simp [alistGet]
    · have hk : p.1 ≠ k := by
        intro hpk
        exact hn.1 (hpk ▸ List.mem_map.mpr ⟨(k, v), h, rfl⟩)
      simp [alistGet, hk, ih hn.2 h]

theorem alistGet_some_mem {α : Type} (m : List (String × α)) (k : String) (v : α)
    (h : alistGet m k = some v) : (k, v) ∈ m := by
  induction m with
  | nil => cases h
  | cons p rest ih =>
    by_cases h1 : p.1 = k
    · simp only [alistGet, h1, if_true, Option.some.injEq] at h
      exact h1 ▸ h ▸ List.mem_cons_self p rest
    · simp only [alistGet, h1, if_false] at h
      exact List.mem_cons_of_mem p (ih h)

theorem mem_values_exists_key {α : Type} (m : List (String × α)) (v : α)
    (h : v ∈ m.map Prod.snd) : ∃ k, (k, v) ∈ m := by
  rcases List.mem_map.mp h with ⟨p, hp, hv⟩
  exact ⟨p.1, by rwa [show (p.1, v) = p from Prod.ext rfl hv.symm]⟩

theorem alistDelete_sublist {α : Type} (m : List (String × α)) (u : String) :
    (alistDelete m u).Sublist m := by
  induction m with
  | nil => simp [alistDelete]
  | cons p rest ih =>
    by_cases h1 : p.1 = u
    · simp only [alistDelete, h1, if_true]
      exact List.sublist_cons_self p rest
    · simp only [alistDelete, h1, if_false]
      exact ih.cons₂ p

/-! ### Lemmas about `remove` -/

theorem remove_absent (st : CacheState) (url : String)
    (h : alistGet st.cacheIndex url = none) : remove st url = (false, st) := by
  simp [remove, h]

theorem remove_blob_missing (st : CacheState) (url : String) (cached : CachedImage)
    (h : alistGet st.cacheIndex url = some cached)
    (hb : cached.localPath ∉ st.blobs) :
    remove st url = (false, st) := by
  simp [remove, h, hb]

theorem remove_success_spec (st : CacheState) (u : String) (cached : CachedImage)
    (h : alistGet st.cacheIndex u = some cached) (hb : cached.localPath ∈ st.blobs) :
    (remove st u).1 = true ∧
    ((remove st u).2).cacheIndex = alistDelete st.cacheIndex u ∧
    ((remove st u).2).cacheMetadata.totalSize = st.cacheMetadata.totalSize - cached.size := by
  simp [remove, h, hb]

theorem remove_preserves_get (st : CacheState) (u k : String) (h : u ≠ k) :
    alistGet ((remove st u).2).cacheIndex k = alistGet st.cacheIndex k := by
  unfold remove
  rcases hget : alistGet st.cacheIndex u with _ | c
  · rfl
  · by_cases hb : c.localPath ∈ st.blobs
    · simp [hb, alistGet_delete_ne st.cacheIndex u k h]
    · simp [hb]

theorem remove_wf (st : CacheState) (u : String) (h : WFIndex st) :
    WFIndex ((remove st u).2) := by
  unfold remove
  rcases hget : alistGet st.cacheIndex u with _ | c
  · exact h
  · by_cases hb : c.localPath ∈ st.blobs
    · simp only [hb, if_true]
      exact ⟨nodup_keys_delete st.cacheIndex u h.1,
        fun p hp => h.2 p ((alistDelete_sublist st.cacheIndex u).subset hp)⟩
    · simp only [hb, if_false]
      exact h

/-! ### Lemmas about candidates and `sortByStrategy` -/

theorem mem_getCleanupCandidates (st : CacheState) (now : Int) (c : CachedImage) :
    c ∈ getCleanupCandidates st now ↔
      c ∈ st.cacheIndex.map Prod.snd ∧
        ¬(now - c.lastAccessedAt < protectionMs st.settings) := by
  simp [getCleanupCandidates, List.mem_filter]

theorem mem_sortByStrategy (candidates : List CachedImage) (strategy : String) (now : Int)
    (c : CachedImage) : c ∈ sortByStrategy candidates strategy now ↔ c ∈ candidates := by
  unfold sortByStrategy
  split_ifs <;> simp

theorem sortByStrategy_nil (strategy : String) (now : Int) :
    sortByStrategy [] strategy now = [] := by
  unfold sortByStrategy
  split_ifs <;> simp

theorem sortByStrategy_perm (candidates : List CachedImage) (strategy : String) (now : Int) :
    (sortByStrategy candidates strategy now).Perm candidates := by
  unfold sortByStrategy
  split_ifs <;> first | exact List.mergeSort_perm _ _ | exact List.Perm.refl _

/-- Under the index invariants, every ranked candidate is (initially) the
entry stored under its own `url`, and it sits outside the protection
window. -/
theorem sorted_candidate_entry (st : CacheState) (now : Int) (strategy : String)
    (hwf : WFIndex st) (c : CachedImage)
    (hc : c ∈ sortByStrategy (getCleanupCandidates st now) strategy now) :
    alistGet st.cacheIndex c.url = some c ∧
      ¬(now - c.lastAccessedAt < protectionMs st.settings) := by
  have hcand := (mem_sortByStrategy _ _ _ c).mp hc
  have hmem := (mem_getCleanupCandidates st now c).mp hcand
  rcases mem_values_exists_key _ c hmem.1 with ⟨kc, hkc⟩
  have hurl : c.url = kc := hwf.2 (kc, c) hkc
  exact ⟨by rw [hurl]; exact alistGet_of_mem_nodup _ kc c hwf.1 hkc, hmem.2⟩

/-! ### Lemmas about the eviction loop -/

theorem cleanupLoop_preserves_get (l : List CachedImage) :
    ∀ (st : CacheState) (target freed : Int) (k : String),
    (∀ c ∈ l, c.url ≠ k) →
    alistGet ((cleanupLoop st l target freed).2).cacheIndex k = alistGet st.cacheIndex k := by
  induction l with
  | nil => intro st target freed k _; rfl
  | cons c rest ih =>
    intro st target freed k hl
    simp only [cleanupLoop]
    by_cases hf : freed ≥ target
    · simp [hf]
    · simp only [hf, if_false]
      rcases hr : remove st c.url with ⟨success, st2⟩
      have h2 : alistGet st2.cacheIndex k = alistGet st.cacheIndex k := by
        have h3 := remove_preserves_get st c.url k (hl c (List.mem_cons_self c rest))
        rwa [hr] at h3
      rw [ih st2 target _ k (fun c2 hc2 => hl c2 (List.mem_cons_of_mem c hc2)), h2]

/-- Through the loop, the bytes accumulated into `freedBytes` are exactly the
bytes that left `metadata.totalSize`, provided each pending candidate is
(still) the entry stored under its own `url`. -/
theorem cleanupLoop_freed_eq_delta (l : List CachedImage) :
    ∀ (st : CacheState) (target freed : Int),
    (st.cacheIndex.map Prod.fst).Nodup →
    (∀ c ∈ l, ∀ v, alistGet st.cacheIndex c.url = some v → v = c) →
    (cleanupLoop st l target freed).1 - freed =
      st.cacheMetadata.totalSize - ((cleanupLoop st l target freed).2).cacheMetadata.totalSize := by
  induction l with
  | nil => intro st target freed _ _; simp [cleanupLoop]
  | cons c rest ih =>
    intro st target freed hn hc
    simp only [cleanupLoop]
    by_cases hf : freed ≥ target
    · simp [hf]
    · simp only [hf, if_false]
      rcases hget : alistGet st.cacheIndex c.url with _ | v
      · rw [show remove st c.url = (false, st) from remove_absent st c.url hget]
        simp only [if_false]
        exact ih st target freed hn (fun c2 hc2 => hc c2 (List.mem_cons_of_mem c hc2))
      · have hget2 : alistGet st.cacheIndex c.url = some c :=
          (hc c (List.mem_cons_self c rest) v hget) ▸ hget
        by_cases hb : c.localPath ∈ st.blobs
        · have hspec := remove_success_spec st c.url c hget2 hb
          rcases hr : remove st c.url with ⟨success, st2⟩
          rw [hr] at hspec
          obtain ⟨hs1, hidx, htot⟩ := hspec
          subst hs1
          rw [if_pos rfl]
          have hn2 : (st2.cacheIndex.map Prod.fst).Nodup := by
            rw [hidx]
            exact nodup_keys_delete st.cacheIndex c.url hn
          have hc2 : ∀ c2 ∈ rest, ∀ w,
              alistGet st2.cacheIndex c2.url = some w → w = c2 := by
            intro c2 hc2mem w hw
            rw [hidx] at hw
            by_cases he : c2.url = c.url
            · rw [he, alistGet_delete_self st.cacheIndex c.url hn] at hw
              cases hw
            · rw [alistGet_delete_ne st.cacheIndex c.url c2.url (fun e => he e.symm)] at hw
              exact hc c2 (List.mem_cons_of_mem c hc2mem) w hw
          have hind := ih st2 target (freed + c.size) hn2 hc2
          dsimp only at htot ⊢
          omega
        · rw [show remove st c.url = (false, st) from remove_blob_missing st c.url c hget2 hb]
          simp only [if_false]
          exact ih st target freed hn (fun c2 hc2 => hc c2 (List.mem_cons_of_mem c hc2))

/-- The loop consumes a prefix `p` of its candidate list and stops exactly
when the accumulated bytes first reach the target: the remainder `r` is
nonempty only if the target was met, and every candidate that was processed
was processed while the running total was still short of the target. -/
theorem cleanupLoop_split (l : List CachedImage) :
    ∀ (st : CacheState) (target freed : Int),
    ∃ p r, l = p ++ r ∧
      cleanupLoop st l target freed = cleanupLoop st p target freed ∧
      (r ≠ [] → (cleanupLoop st l target freed).1 ≥ target) ∧
      (∀ q c r2, p = q ++ c :: r2 → (cleanupLoop st q target freed).1 < target) := by
  induction l with
  | nil =>
    intro st target freed
    refine ⟨[], [], rfl, rfl, fun h => absurd rfl h, ?_⟩
    intro q c r2 hq
    exact absurd hq.symm (by simp)
  | cons c rest ih =>
    intro st target freed
    by_cases hf : freed ≥ target
    · refine ⟨[], c :: rest, rfl, ?_, ?_, ?_⟩
      · simp [cleanupLoop, hf]
      · intro _
        simp [cleanupLoop, hf]
      · intro q c2 r2 hq
        exact absurd hq.symm (by simp)
    · rcases hr : remove st c.url with ⟨success, st2⟩
      rcases ih st2 target (if success then freed + c.size else freed) with ⟨p, r, hpr, heq, hstop, hmin⟩
      have hunfold : cleanupLoop st (c :: rest) target freed =
          cleanupLoop st2 rest target (if success then freed + c.size else freed) := by
        simp only [cleanupLoop, hf, if_false, hr]
      refine ⟨c :: p, r, by rw [List.cons_append, hpr], ?_, ?_, ?_⟩
      · rw [hunfold, heq]
        simp only [cleanupLoop, hf, if_false, hr]
      · intro hrne
        rw [hunfold]
        exact hstop hrne
      · intro q c2 r2 hq
        cases q with
        | nil =>
          simp only [cleanupLoop]
          exact lt_of_not_ge hf
        | cons c3 q2 =>
          rw [List.cons_append] at hq
          injection hq with hc3 hq2
          subst hc3
          have hq2unfold : cleanupLoop st (c :: q2) target freed =
              cleanupLoop st2 q2 target (if success then freed + c.size else freed) := by
            simp only [cleanupLoop, hf, if_false, hr]
          rw [hq2unfold]
          exact hmin q2 c2 r2 hq2

/-- Bytes freed never exceed the combined size of the candidates offered,
when those sizes are non-negative. -/
theorem cleanupLoop_freed_le (l : List CachedImage) :
    ∀ (st : CacheState) (target freed : Int),
    (∀ c ∈ l, 0 ≤ c.size) →
    (cleanupLoop st l target freed).1 ≤ freed + (l.map CachedImage.size).sum := by
  induction l with
  | nil => intro st target freed _; simp [cleanupLoop]
  | cons c rest ih =>
    intro st target freed hs
    have hc0 : 0 ≤ c.size := hs c (List.mem_cons_self c rest)
    have hrest0 : 0 ≤ (rest.map CachedImage.size).sum := by
      refine List.sum_nonneg ?_
      intro x hx
      rcases List.mem_map.mp hx with ⟨c2, hc2, hxe⟩
      exact hxe ▸ hs c2 (List.mem_cons_of_mem c hc2)
    simp only [cleanupLoop]
    by_cases hf : freed ≥ target
    · simp only [hf, if_true, List.map_cons, List.sum_cons]
      omega
    · simp only [hf, if_false]
      rcases hr : remove st c.url with ⟨success, st2⟩
      simp only [List.map_cons, List.sum_cons]
      cases success with
      | true =>
        have hind := ih st2 target (freed + c.size)
          (fun c2 hc2 => hs c2 (List.mem_cons_of_mem c hc2))
        rw [if_pos rfl]
        omega
      | false =>
        have hind := ih st2 target freed
          (fun c2 hc2 => hs c2 (List.mem_cons_of_mem c hc2))
        rw [if_neg (by simp)]
        omega

/-- A protected entry survives one `cleanup` pass, whatever the strategy
string and target. -/
theorem cleanup_preserves_protected
    (st : CacheState) (now target : Int) (k : String) (e : CachedImage)
    (hwf : WFIndex st)
    (hk : alistGet st.cacheIndex k = some e)
    (hprot : now - e.lastAccessedAt < protectionMs st.settings) :
    alistGet ((cleanup st now target).2).cacheIndex k = some e := by
  unfold cleanup
  by_cases hlen : (getCleanupCandidates st now).length = 0
  · simp [hlen, hk]
  · simp only [hlen, if_false]
    have hurl : ∀ c ∈ sortByStrategy (getCleanupCandidates st now)
        st.settings.cacheStrategy now, c.url ≠ k := by
      intro c hcmem hek
      obtain ⟨hgetc, hunprot⟩ :=
        sorted_candidate_entry st now st.settings.cacheStrategy hwf c hcmem
      rw [hek, hk] at hgetc
      cases Option.some.inj hgetc
      exact hunprot hprot
    have hpres := cleanupLoop_preserves_get _ st target 0 k hurl
    rcases hl : cleanupLoop st (sortByStrategy (getCleanupCandidates st now)
        st.settings.cacheStrategy now) target 0 with ⟨freed, st2⟩
    rw [hl] at hpres
    dsimp only
    dsimp only at hpres
    rw [hpres, hk]

/-- C3: for every cache state satisfying the reachable-state invariants,
every configured strategy string (the state quantifies over all of them,
including lru, lfu, fifo and smart) and every target byte count, an entry
whose `lastAccessedAt` is within `cacheProtectionDays` of now is never
removed by `cleanup` or `checkAndCleanup`; and when the unprotected
candidates together are smaller than the target, `cleanup` returns fewer
bytes than requested (it is a total function — no error is raised). -/
theorem protection_window_holds
    (st : CacheState) (now target : Int) (k : String) (e : CachedImage)
    (hwf : WFIndex st) (hsz : NonnegSizes st)
    (hk : alistGet st.cacheIndex k = some e)
    (hprot : now - e.lastAccessedAt < protectionMs st.settings) :
    alistGet ((cleanup st now target).2).cacheIndex k = some e ∧
    alistGet (checkAndCleanup st now).cacheIndex k = some e ∧
    (((getCleanupCandidates st now).map CachedImage.size).sum < target →
      (cleanup st now target).1 < target) := by
  refine ⟨cleanup_preserves_protected st now target k e hwf hk hprot, ?_, ?_⟩
  · unfold checkAndCleanup
    by_cases hen : st.settings.enableCache
    · simp only [hen, Bool.not_true, Bool.false_eq_true, if_false]
      by_cases hover : st.settings.maxCacheSize * 1024 * 1024 > 0 ∧
          st.cacheMetadata.totalSize > st.settings.maxCacheSize * 1024 * 1024
      · rw [if_pos hover]
        exact cleanup_preserves_protected st now _ k e hwf hk hprot
      · rw [if_neg hover]
        exact hk
    · have hen2 : st.settings.enableCache = false := by
        cases h2 : st.settings.enableCache
        · rfl
        · exact absurd h2 hen
      simp only [hen2, Bool.not_false, if_true]
      exact hk
  · intro hlt
    unfold cleanup
    by_cases hlen : (getCleanupCandidates st now).length = 0
    · have hcand : getCleanupCandidates st now = [] := List.length_eq_zero.mp hlen
      rw [hcand] at hlt
      simp only [hlen, if_true]
      simpa using hlt
    · simp only [hlen, if_false]
      have hnn : ∀ c ∈ sortByStrategy (getCleanupCandidates st now)
          st.settings.cacheStrategy now, 0 ≤ c.size := by
        intro c hcmem
        have h1 := (sorted_candidate_entry st now _ hwf c hcmem).1
        exact hsz (c.url, c) (alistGet_some_mem _ _ _ h1)
      have hb := cleanupLoop_freed_le
        (sortByStrategy (getCleanupCandidates st now) st.settings.cacheStrategy now)
        st target 0 hnn
      have hsum : ((sortByStrategy (getCleanupCandidates st now)
              st.settings.cacheStrategy now).map CachedImage.size).sum =
          ((getCleanupCandidates st now).map CachedImage.size).sum :=
        ((sortByStrategy_perm _ _ _).map _).sum_eq
      rcases hl : cleanupLoop st (sortByStrategy (getCleanupCandidates st now)
          st.settings.cacheStrategy now) target 0 with ⟨freed, st2⟩
      rw [hl] at hb
      dsimp only at hb ⊢
      omega

/-- C6: for every well-formed state and positive target, `cleanup` walks a
prefix `p` of the strategy-ordered candidates one entry at a time, stops as
soon as the accumulated freed bytes reach the target (each processed entry
was attempted while the running total was still short of it; candidates
remain unprocessed only if the target was met) or all candidates are
exhausted, and returns the actual number of bytes freed — exactly the drop
in `metadata.totalSize`, which may be less than the target. -/
theorem cleanup_postcondition
    (st : CacheState) (now target : Int) (hwf : WFIndex st) (htarget : 0 < target) :
    (cleanup st now target).1 =
        st.cacheMetadata.totalSize - ((cleanup st now target).2).cacheMetadata.totalSize ∧
    ∃ p r,
      sortByStrategy (getCleanupCandidates st now) st.settings.cacheStrategy now = p ++ r ∧
      cleanupLoop st (sortByStrategy (getCleanupCandidates st now)
          st.settings.cacheStrategy now) target 0 = cleanupLoop st p target 0 ∧
      (r ≠ [] → (cleanup st now target).1 ≥ target) ∧
      (∀ q c r2, p = q ++ c :: r2 → (cleanupLoop st q target 0).1 < target) := by
  unfold cleanup
  by_cases hlen : (getCleanupCandidates st now).length = 0
  · have hcand : getCleanupCandidates st now = [] := List.length_eq_zero.mp hlen
    simp only [hlen, if_true]
    refine ⟨by simp, [], [], by simp [hcand, sortByStrategy_nil], ?_, ?_, ?_⟩
    · rw [hcand, sortByStrategy_nil]
    · intro h
      exact absurd rfl h
    · intro q c r2 hq
      exact absurd hq.symm (by simp)
  · simp only [hlen, if_false]
    have hcanon : ∀ c ∈ sortByStrategy (getCleanupCandidates st now)
        st.settings.cacheStrategy now,
        ∀ v, alistGet st.cacheIndex c.url = some v → v = c := by
      intro c hcmem v hv
      have h1 := (sorted_candidate_entry st now _ hwf c hcmem).1
      rw [h1] at hv
      exact (Option.some.inj hv).symm
    have hdelta := cleanupLoop_freed_eq_delta
      (sortByStrategy (getCleanupCandidates st now) st.settings.cacheStrategy now)
      st target 0 hwf.1 hcanon
    rcases cleanupLoop_split
        (sortByStrategy (getCleanupCandidates st now) st.settings.cacheStrategy now)
        st target 0 with ⟨p, r, hpr, heq, hstop, hmin⟩
    rcases hl : cleanupLoop st (sortByStrategy (getCleanupCandidates st now)
        st.settings.cacheStrategy now) target 0 with ⟨freed, st2⟩
    rw [hl] at hdelta hstop heq
    dsimp only at hdelta ⊢
    refine ⟨by omega, p, r, hpr, heq, ?_, hmin⟩
    intro hr
    exact hstop hr

/-- Merge-sorting on an integer field yields a permutation that is strictly
ascending in that field whenever the field values are pairwise distinct. -/
theorem mergeSort_strict_field (l : List CachedImage) (f : CachedImage → Int)
    (h : (l.map f).Nodup) :
    ((l.mergeSort (fun a b => decide (f a ≤ f b))).Perm l ∧
      (l.mergeSort (fun a b => decide (f a ≤ f b))).Pairwise (fun a b => f a < f b)) := by
  have hperm := List.mergeSort_perm l (fun a b => decide (f a ≤ f b))
  refine ⟨hperm, ?_⟩
  have hs := @List.sorted_mergeSort CachedImage (fun a b => decide (f a ≤ f b))
    (fun a b c hab hbc => by
      simp only [decide_eq_true_eq] at hab hbc ⊢
      omega)
    (fun a b => by simpa using le_total (f a) (f b))
    l
  have hnd : ((l.mergeSort (fun a b => decide (f a ≤ f b))).map f).Nodup :=
    ((hperm.map f).nodup_iff).mpr h
  have hne := List.pairwise_map.mp hnd
  refine (hs.and hne).imp ?_
  intro a b hab
  have h1 : f a ≤ f b := by simpa using hab.1
  exact lt_of_le_of_ne h1 hab.2

/-- C7: `sortByStrategy` — and hence the eviction order of `cleanup`, which
removes along this list (see the C6 theorem) — ranks candidates with
pairwise-distinct `lastAccessedAt` strictly ascending in `lastAccessedAt`
under LRU, pairwise-distinct `accessCount` strictly ascending in
`accessCount` under LFU, and pairwise-distinct `createdAt` strictly
ascending in `createdAt` under FIFO; each ranking is a permutation of the
candidates. -/
theorem strategy_ordering (candidates : List CachedImage) (now : Int) :
    ((candidates.map CachedImage.lastAccessedAt).Nodup →
      (sortByStrategy candidates "lru" now).Perm candidates ∧
      (sortByStrategy candidates "lru" now).Pairwise
        (fun a b => a.lastAccessedAt < b.lastAccessedAt)) ∧
    ((candidates.map CachedImage.accessCount).Nodup →
      (sortByStrategy candidates "lfu" now).Perm candidates ∧
      (sortByStrategy candidates "lfu" now).Pairwise
        (fun a b => a.accessCount < b.accessCount)) ∧
    ((candidates.map CachedImage.createdAt).Nodup →
      (sortByStrategy candidates "fifo" now).Perm candidates ∧
      (sortByStrategy candidates "fifo" now).Pairwise
        (fun a b => a.createdAt < b.createdAt)) := by
  refine ⟨fun h => ?_, fun h => ?_, fun h => ?_⟩
  · have he : sortByStrategy candidates "lru" now =
        candidates.mergeSort (fun a b => decide (a.lastAccessedAt ≤ b.lastAccessedAt)) := rfl
    rw [he]
    exact mergeSort_strict_field candidates CachedImage.lastAccessedAt h
  · have he : sortByStrategy candidates "lfu" now =
        candidates.mergeSort (fun a b => decide (a.accessCount ≤ b.accessCount)) := rfl
    rw [he]
    exact mergeSort_strict_field candidates CachedImage.accessCount h
  · have he : sortByStrategy candidates "fifo" now =
        candidates.mergeSort (fun a b => decide (a.createdAt ≤ b.createdAt)) := rfl
    rw [he]
    exact mergeSort_strict_field candidates CachedImage.createdAt h

/-- C8: holding every other field of the entry and the current time fixed,
raising `accessCount` never lowers the Smart score, and moving
`lastAccessedAt` earlier (that is, raising `daysSinceLastAccess`) never
raises it. -/
theorem smart_score_monotonicity :
    (∀ (e : CachedImage) (now c1 c2 : Int), 0 ≤ c1 → c1 ≤ c2 →
      calculateSmartScore { e with accessCount := c1 } now ≤
        calculateSmartScore { e with accessCount := c2 } now) ∧
    (∀ (e : CachedImage) (now l1 l2 : Int), l1 ≤ l2 → l2 ≤ now →
      calculateSmartScore { e with lastAccessedAt := l1 } now ≤
        calculateSmartScore { e with lastAccessedAt := l2 } now) := by
  constructor
  · intro e now c1 c2 h0 h12
    unfold calculateSmartScore
    dsimp only
    have hlog : Real.log ((c1 : ℝ) + 1) ≤ Real.log ((c2 : ℝ) + 1) := by
      have h1 : (0 : ℝ) < (c1 : ℝ) + 1 := by
        have : (0 : ℝ) ≤ (c1 : ℝ) := by exact_mod_cast h0
        linarith
      have h2 : ((c1 : ℝ) + 1) ≤ ((c2 : ℝ) + 1) := by
        have : (c1 : ℝ) ≤ (c2 : ℝ) := by exact_mod_cast h12
        linarith
      exact Real.log_le_log h1 h2
    linarith
  · intro e now l1 l2 h12 h2n
    unfold calculateSmartScore
    dsimp only
    have hd2 : (0 : ℝ) ≤ ((now : ℝ) - (l2 : ℝ)) / (24 * 60 * 60 * 1000) := by
      have : (l2 : ℝ) ≤ (now : ℝ) := by exact_mod_cast h2n
      apply div_nonneg
      · linarith
      · norm_num
    have hdle : ((now : ℝ) - (l2 : ℝ)) / (24 * 60 * 60 * 1000) ≤
        ((now : ℝ) - (l1 : ℝ)) / (24 * 60 * 60 * 1000) := by
      have : (l1 : ℝ) ≤ (l2 : ℝ) := by exact_mod_cast h12
      gcongr
    have hrec : 1000 / (((now : ℝ) - (l1 : ℝ)) / (24 * 60 * 60 * 1000) + 1) ≤
        1000 / (((now : ℝ) - (l2 : ℝ)) / (24 * 60 * 60 * 1000) + 1) := by
      gcongr
    linarith

/-! ### Persistence (`saveCacheIndex` / `loadCacheIndex`)

`saveCacheIndex` writes `JSON.stringify({ metadata, index:
Object.fromEntries(this.cacheIndex) })`; `loadCacheIndex` parses the
document, takes `parsed.metadata || this.cacheMetadata`, and re-`set`s every
`[url, cached]` pair of `parsed.index` into a cleared map.  The document is
modelled as a JSON tree (`JSON.parse ∘ JSON.stringify` is the identity on
the JSON-representable values produced here, a platform guarantee);
`JSON.stringify` drops `undefined`-valued optional fields, and the untyped
`cached as CachedImage` cast on load is modelled by a shape decoder that
succeeds on every value the encoder produces. -/

inductive Json where
  | str : String → Json
  | num : Int → Json
  | obj : List (String × Json) → Json

/-- Optional string fields are present exactly when defined. -/
def optField (name : String) : Option String → List (String × Json)
  | none => []
  | some s => [(name, Json.str s)]

/-- The JSON object `JSON.stringify` produces for one `CachedImage`. -/
def entryToJson (e : CachedImage) : Json :=
  Json.obj ([("url", Json.str e.url), ("localPath", Json.str e.localPath)]
    ++ optField "githubUrl" e.githubUrl
    ++ [("size", Json.num e.size), ("createdAt", Json.num e.createdAt),
        ("lastAccessedAt", Json.num e.lastAccessedAt),
        ("accessCount", Json.num e.accessCount)]
    ++ optField "hash" e.hash)

def jsonStr? : Option Json → Option String
  | some (Json.str s) => some s
  | _ => none

def jsonNum? : Option Json → Option Int
  | some (Json.num n) => some n
  | _ => none

/-- Shape of a parsed index row (the `cached as CachedImage` cast). -/
def jsonToEntry : Json → Option CachedImage
  | Json.obj fields =>
    match jsonStr? (alistGet fields "url"), jsonStr? (alistGet fields "localPath"),
        jsonNum? (alistGet fields "size"), jsonNum? (alistGet fields "createdAt"),
        jsonNum? (alistGet fields "lastAccessedAt"),
        jsonNum? (alistGet fields "accessCount") with
    | some url, some localPath, some size, some createdAt, some lastAccessedAt,
      some accessCount =>
      some
        { url := url
          localPath := localPath
          githubUrl := jsonStr? (alistGet fields "githubUrl")
          size := size
          createdAt := createdAt
          lastAccessedAt := lastAccessedAt
          accessCount := accessCount
          hash := jsonStr? (alistGet fields "hash") }
    | _, _, _, _, _, _ => none
  | _ => none

def metadataToJson (m : CacheMetadata) : Json :=
  Json.obj [("totalSize", Json.num m.totalSize), ("imageCount", Json.num m.imageCount),
    ("lastCleanup", Json.num m.lastCleanup), ("version", Json.str m.version)]

def jsonToMetadata : Json → Option CacheMetadata
  | Json.obj fields =>
    match jsonNum? (alistGet fields "totalSize"), jsonNum? (alistGet fields "imageCount"),
        jsonNum? (alistGet fields "lastCleanup"), jsonStr? (alistGet fields "version") with
    | some totalSize, some imageCount, some lastCleanup, some version =>
      some { totalSize := totalSize, imageCount := imageCount,
             lastCleanup := lastCleanup, version := version }
    | _, _, _, _ => none
  | _ => none

/-- `CacheManager.saveCacheIndex`: the document written to `index.json`. -/
def saveDoc (st : CacheState) : Json :=
  Json.obj [("metadata", metadataToJson st.cacheMetadata),
    ("index", Json.obj (st.cacheIndex.map (fun p => (p.1, entryToJson p.2))))]

/-- One `this.cacheIndex.set(url, cached as CachedImage)` iteration of
`loadCacheIndex`. -/
def loadEntryStep (acc : List (String × CachedImage)) (p : String × Json) :
    List (String × CachedImage) :=
  match jsonToEntry p.2 with
  | some e => alistSet acc p.1 e
  | none => acc

/-- `CacheManager.loadCacheIndex`, applied to a parsed document:
`parsed.metadata || this.cacheMetadata` for the metadata, and, when
`parsed.index` is present, clear the map and `set` each entry of the parsed
object; an unreadable document leaves the state as constructed. -/
def loadFromDoc (st : CacheState) (doc : Json) : CacheState :=
  match doc with
  | Json.obj fields =>
    let md :=
      match alistGet fields "metadata" with
      | some mj => (jsonToMetadata mj).getD st.cacheMetadata
      | none => st.cacheMetadata
    let idx :=
      match alistGet fields "index" with
      | some (Json.obj entries) => entries.foldl loadEntryStep []
      | _ => st.cacheIndex
    { st with cacheMetadata := md, cacheIndex := idx }
  | _ => st

theorem jsonToEntry_entryToJson (e : CachedImage) : jsonToEntry (entryToJson e) = some e := by
  rcases e with ⟨url, localPath, githubUrl, size, createdAt, lastAccessedAt, accessCount, hash⟩
  rcases githubUrl with _ | g <;> rcases hash with _ | h <;> rfl

theorem jsonToMetadata_metadataToJson (m : CacheMetadata) :
    jsonToMetadata (metadataToJson m) = some m := by
  rcases m with ⟨totalSize, imageCount, lastCleanup, version⟩
  rfl

theorem alistSet_fresh {α : Type} (acc : List (String × α)) (k : String) (v : α)
    (h : k ∉ acc.map Prod.fst) : alistSet acc k v = acc ++ [(k, v)] := by
  induction acc with
  | nil => rfl
  | cons p rest ih =>
    simp only [List.map_cons, List.mem_cons, not_or] at h
    have hpk : p.1 ≠ k := fun e => h.1 e.symm
    simp [alistSet, hpk, ih h.2]

/-- Folding the encoded rows back through `Map.set` reproduces the original
association list, provided its keys are distinct and disjoint from the
accumulator. -/
theorem load_fold_encoded (l : List (String × CachedImage)) :
    ∀ acc : List (String × CachedImage),
    (∀ p ∈ l, p.1 ∉ acc.map Prod.fst) →
    (l.map Prod.fst).Nodup →
    (l.map (fun p => (p.1, entryToJson p.2))).foldl loadEntryStep acc = acc ++ l := by
  induction l with
  | nil => intro acc _ _; simp
  | cons p rest ih =>
    intro acc hdisj hnd
    simp only [List.map_cons, List.foldl_cons]
    have hstep : loadEntryStep acc (p.1, entryToJson p.2) = acc ++ [p] := by
      unfold loadEntryStep
      rw [jsonToEntry_entryToJson]
      dsimp only
      rw [alistSet_fresh acc p.1 p.2 (hdisj p (List.mem_cons_self p rest))]
    rw [hstep]
    simp only [List.map_cons, List.nodup_cons] at hnd
    have hdisj2 : ∀ q ∈ rest, q.1 ∉ (acc ++ [p]).map Prod.fst := by
      intro q hq
      simp only [List.map_append, List.mem_append, List.map_cons, List.map_nil,
        List.mem_singleton, not_or]
      refine ⟨hdisj q (List.mem_cons_of_mem p hq), ?_⟩
      intro hqp
      exact hnd.1 (hqp ▸ List.mem_map.mpr ⟨q, hq, rfl⟩)
    rw [ih (acc ++ [p]) hdisj2 hnd.2]
    simp

/-- C9: serializing the index and metadata with `saveCacheIndex` and loading
the document into a fresh `CacheManager` instance reproduces the identical
index — same keys in the same order, and per-entry `url`, `localPath`,
`githubUrl`, `size`, `createdAt`, `lastAccessedAt`, `accessCount` and `hash`
all equal — together with the identical metadata. -/
theorem index_roundtrip (st : CacheState) (settings2 : ImagePluginSettings) (now2 : Int)
    (h : (st.cacheIndex.map Prod.fst).Nodup) :
    (loadFromDoc (initialState settings2 now2) (saveDoc st)).cacheIndex = st.cacheIndex ∧
    (loadFromDoc (initialState settings2 now2) (saveDoc st)).cacheMetadata =
      st.cacheMetadata := by
  unfold loadFromDoc saveDoc
  constructor
  · dsimp only
    have halist : alistGet [("metadata", metadataToJson st.cacheMetadata),
        ("index", Json.obj (st.cacheIndex.map (fun p => (p.1, entryToJson p.2))))] "index" =
        some (Json.obj (st.cacheIndex.map (fun p => (p.1, entryToJson p.2)))) := rfl
    rw [halist]
    have := load_fold_encoded st.cacheIndex [] (by simp) h
    simpa using this
  · dsimp only
    have halist : alistGet [("metadata", metadataToJson st.cacheMetadata),
        ("index", Json.obj (st.cacheIndex.map (fun p => (p.1, entryToJson p.2))))] "metadata" =
        some (metadataToJson st.cacheMetadata) := rfl
    rw [halist]
    dsimp only
    rw [jsonToMetadata_metadataToJson]
    rfl

/-! ### Concrete scenario states -/

set_option maxRecDepth 10000

/-- Settings for the concrete scenarios: caching disabled, so the
`checkAndCleanup` at the end of `add` takes its no-op branch. -/
def demoSettings : ImagePluginSettings :=
  { enableCache := false, maxCacheSize := 0, cacheProtectionDays := 7, cacheStrategy := "smart" }

/-- C1 (code bug): aggregate consistency fails after a completed re-add.
From a fresh instance, adding the same key with a 2-byte payload and then a
3-byte payload leaves one index entry whose sizes sum to 3, yet
`metadata.totalSize` is 5 and `metadata.imageCount` is 2: `add` runs
`totalSize += cached.size; imageCount++` unconditionally even when
`cacheIndex.set(url, cached)` replaced an existing entry. -/
theorem readd_drifts_aggregates :
    ∃ c1 st1 c2 st2,
      add (initialState demoSettings 0) 0 "https://a.example/x.png" 2 none =
        Except.ok (c1, st1) ∧
      add st1 1 "https://a.example/x.png" 3 none = Except.ok (c2, st2) ∧
      st2.cacheIndex.length = 1 ∧
      indexSizeSum st2 = 3 ∧
      st2.cacheMetadata.totalSize = 5 ∧
      st2.cacheMetadata.imageCount = 2 := by
  exact ⟨_, _, _, _, rfl, rfl, rfl, rfl, rfl, rfl⟩

/-- C2 (code bug): re-adding an existing key does leave exactly one index
entry whose `size` reflects only the second payload — that half of the
claim holds — but the first payload's byte count leaks into
`metadata.totalSize` (10 + 20 = 30 instead of 20) and the entry is counted
twice in `metadata.imageCount`, because `add` never subtracts the replaced
entry's size or checks for an existing key. -/
theorem readd_leaks_first_payload :
    ∃ c1 st1 c2 st2,
      add (initialState demoSettings 0) 0 "https://b.example/y.jpg" 10 none =
        Except.ok (c1, st1) ∧
      add st1 1 "https://b.example/y.jpg" 20 none = Except.ok (c2, st2) ∧
      st2.cacheIndex.length = 1 ∧
      (alistGet st2.cacheIndex "https://b.example/y.jpg").map CachedImage.size = some 20 ∧
      st2.cacheMetadata.totalSize = 30 ∧
      st2.cacheMetadata.imageCount = 2 := by
  exact ⟨_, _, _, _, rfl, rfl, rfl, rfl, rfl, rfl⟩

/-- An index entry whose blob is already gone from the store. -/
def orphanEntry : CachedImage :=
  { url := "https://c.example/a.png", localPath := "cachedir/a.png", githubUrl := none,
    size := 4, createdAt := 0, lastAccessedAt := 0, accessCount := 1, hash := none }

def orphanState : CacheState :=
  { settings := demoSettings
    cacheIndex := [("https://c.example/a.png", orphanEntry)]
    cacheMetadata := { totalSize := 4, imageCount := 1, lastCleanup := 0, version := "1.0.0" }
    blobs := [] }

/-- C4 counterexample: for a key present in the index whose blob is already
absent, `remove` does NOT delete the index row, does not touch `totalSize`
or `imageCount`, and reports failure — the thrown blob deletion lands in
the catch-all `catch`, which returns `false` before any index mutation.
This contradicts the claim that the index row is still deleted and success
is reported. -/
theorem remove_missing_blob_counterexample :
    remove orphanState "https://c.example/a.png" = (false, orphanState) ∧
    alistGet (remove orphanState "https://c.example/a.png").2.cacheIndex
      "https://c.example/a.png" = some orphanEntry ∧
    (remove orphanState "https://c.example/a.png").2.cacheMetadata.imageCount = 1 := by
  exact ⟨by decide, by decide, by decide⟩

/-- C4 (amended): for every key present in the index whose blob is already
absent (the blob deletion throws a missing-file error), `remove` catches
the error and returns `false`, leaving the index row, `totalSize`,
`imageCount` and the blob store all unchanged — missing blobs are not
tolerated; the index row survives. -/
theorem remove_missing_blob_amended
    (st : CacheState) (k : String) (e : CachedImage)
    (hk : alistGet st.cacheIndex k = some e)
    (hb : e.localPath ∉ st.blobs) :
    (remove st k).1 = false ∧
    alistGet ((remove st k).2).cacheIndex k = some e ∧
    ((remove st k).2).cacheMetadata = st.cacheMetadata ∧
    ((remove st k).2).blobs = st.blobs := by
  have h := remove_blob_missing st k e hk hb
  rw [h]
  exact ⟨rfl, hk, rfl, rfl⟩

theorem remove_missing_blob_amended_witness :
    (remove orphanState "https://c.example/a.png").1 = false ∧
    alistGet ((remove orphanState "https://c.example/a.png").2).cacheIndex
      "https://c.example/a.png" = some orphanEntry ∧
    ((remove orphanState "https://c.example/a.png").2).cacheMetadata =
      orphanState.cacheMetadata ∧
    ((remove orphanState "https://c.example/a.png").2).blobs = orphanState.blobs :=
  remove_missing_blob_amended orphanState "https://c.example/a.png" orphanEntry (by decide)
    (by decide)

/-- C10: `remove` is atomic on error.  If the key is absent from the index,
or the key is present but the blob deletion throws (its path is absent from
the blob store), `remove` returns `false` and the state — index, metadata
aggregates and blob store — is exactly the input state; no partial mutation
survives a failed remove. -/
theorem remove_error_atomicity
    (st : CacheState) (k : String)
    (h : alistGet st.cacheIndex k = none ∨
      ∃ e, alistGet st.cacheIndex k = some e ∧ e.localPath ∉ st.blobs) :
    remove st k = (false, st) := by
  rcases h with h | ⟨e, he, hb⟩
  · exact remove_absent st k h
  · exact remove_blob_missing st k e he hb

theorem remove_error_atomicity_witness :
    remove (initialState demoSettings 0) "https://missing.example/x.png" =
      (false, initialState demoSettings 0) :=
  remove_error_atomicity (initialState demoSettings 0) "https://missing.example/x.png"
    (Or.inl rfl)

/-- C5 counterexample: filename derivation is not total and does not fall
back to a generic image extension.  `new URL("hello")` throws (no filename
is produced), and for the well-formed key `https://b.example/file`, whose
pathname has no dot, the whole pathname `/file` becomes the "extension"
instead of the generic `png`. -/
theorem generateFilename_counterexample :
    generateFilename "hello" = none ∧
    generateFilename "https://b.example/file" =
      some (simpleHash "https://b.example/file" ++ "." ++ "/file") := by
  exact ⟨by decide, by decide⟩

/-- C5 (amended): `generateFilename` returns `hash.extension` without
throwing exactly for the keys the URL constructor accepts; the extension is
the last dot-separated segment of the pathname whenever that segment is
non-empty (even when it is no image extension — for a dotless pathname it
is the entire pathname), and the generic `"png"` only when that last
segment is the empty string.  Keys the URL constructor rejects make
`generateFilename` throw. -/
theorem generateFilename_wellformed
    (url p : String) (hp : urlPathname url = some p) :
    ∃ ext, generateFilename url = some (simpleHash url ++ "." ++ ext) ∧
      (∀ s, (jsSplitDot p).getLast? = some s → s ≠ "" → ext = s) ∧
      ((jsSplitDot p).getLast? = some "" → ext = "png") := by
  unfold generateFilename
  rw [hp]
  dsimp only
  refine ⟨_, rfl, ?_, ?_⟩
  · intro s hs hne
    rw [hs]
    simp [hne]
  · intro hs
    rw [hs]
    simp

theorem generateFilename_wellformed_witness :
    urlPathname "https://a.example/pic.png" = some "/pic.png" ∧
    (∃ ext, generateFilename "https://a.example/pic.png" =
        some (simpleHash "https://a.example/pic.png" ++ "." ++ ext) ∧
      (∀ s, (jsSplitDot "/pic.png").getLast? = some s → s ≠ "" → ext = s) ∧
      ((jsSplitDot "/pic.png").getLast? = some "" → ext = "png")) :=
  ⟨by decide, generateFilename_wellformed "https://a.example/pic.png" "/pic.png" (by decide)⟩

/-! ### Witness states for the general theorems -/

/-- An entry accessed 1 ms before `now = 1000`, inside a 7-day protection
window. -/
def protEntry : CachedImage :=
  { url := "https://p.example/p.png", localPath := "cachedir/p.png", githubUrl := none,
    size := 600, createdAt := 0, lastAccessedAt := 999, accessCount := 3, hash := none }

def protState : CacheState :=
  { settings :=
      { enableCache := true, maxCacheSize := 0, cacheProtectionDays := 7,
        cacheStrategy := "lru" }
    cacheIndex := [("https://p.example/p.png", protEntry)]
    cacheMetadata := { totalSize := 600, imageCount := 1, lastCleanup := 0, version := "1.0.0" }
    blobs := ["cachedir/p.png"] }

theorem protection_window_holds_witness :
    (WFIndex protState ∧ NonnegSizes protState ∧
      alistGet protState.cacheIndex "https://p.example/p.png" = some protEntry ∧
      1000 - protEntry.lastAccessedAt < protectionMs protState.settings) ∧
    (alistGet ((cleanup protState 1000 500).2).cacheIndex "https://p.example/p.png" =
        some protEntry ∧
      alistGet (checkAndCleanup protState 1000).cacheIndex "https://p.example/p.png" =
        some protEntry ∧
      (((getCleanupCandidates protState 1000).map CachedImage.size).sum < 500 →
        (cleanup protState 1000 500).1 < 500)) :=
  ⟨⟨by decide, by decide, by decide, by decide⟩,
    protection_window_holds protState 1000 500 "https://p.example/p.png" protEntry
      (by decide) (by decide) (by decide) (by decide)⟩

/-- An unprotected single-entry state under the FIFO strategy. -/
def evictEntry : CachedImage :=
  { url := "https://e.example/e.png", localPath := "cachedir/e.png", githubUrl := none,
    size := 700, createdAt := 0, lastAccessedAt := 0, accessCount := 1, hash := none }

def evictState : CacheState :=
  { settings :=
      { enableCache := true, maxCacheSize := 1, cacheProtectionDays := 0,
        cacheStrategy := "fifo" }
    cacheIndex := [("https://e.example/e.png", evictEntry)]
    cacheMetadata := { totalSize := 700, imageCount := 1, lastCleanup := 0, version := "1.0.0" }
    blobs := ["cachedir/e.png"] }

theorem cleanup_postcondition_witness :
    (WFIndex evictState ∧ (0 : Int) < 100) ∧
    ((cleanup evictState 5 100).1 =
        evictState.cacheMetadata.totalSize -
          ((cleanup evictState 5 100).2).cacheMetadata.totalSize ∧
      ∃ p r,
        sortByStrategy (getCleanupCandidates evictState 5)
            evictState.settings.cacheStrategy 5 = p ++ r ∧
        cleanupLoop evictState (sortByStrategy (getCleanupCandidates evictState 5)
            evictState.settings.cacheStrategy 5) 100 0 = cleanupLoop evictState p 100 0 ∧
        (r ≠ [] → (cleanup evictState 5 100).1 ≥ 100) ∧
        (∀ q c r2, p = q ++ c :: r2 → (cleanupLoop evictState q 100 0).1 < 100)) :=
  ⟨⟨by decide, by decide⟩, cleanup_postcondition evictState 5 100 (by decide) (by decide)⟩

/-- Two entries with pairwise-distinct ranking fields. -/
def orderEntry1 : CachedImage :=
  { url := "https://o.example/1.png", localPath := "cachedir/1.png", githubUrl := none,
    size := 1, createdAt := 5, lastAccessedAt := 30, accessCount := 7, hash := none }

def orderEntry2 : CachedImage :=
  { url := "https://o.example/2.png", localPath := "cachedir/2.png", githubUrl := none,
    size := 2, createdAt := 3, lastAccessedAt := 10, accessCount := 9, hash := none }

theorem strategy_ordering_witness :
    ([orderEntry1, orderEntry2].map CachedImage.lastAccessedAt).Nodup ∧
    ((sortByStrategy [orderEntry1, orderEntry2] "lru" 100).Perm [orderEntry1, orderEntry2] ∧
      (sortByStrategy [orderEntry1, orderEntry2] "lru" 100).Pairwise
        (fun a b => a.lastAccessedAt < b.lastAccessedAt)) :=
  ⟨by decide, (strategy_ordering [orderEntry1, orderEntry2] 100).1 (by decide)⟩

theorem smart_score_monotonicity_witness :
    ((0 : Int) ≤ 1 ∧ (1 : Int) ≤ 5 ∧
      calculateSmartScore { orderEntry1 with accessCount := 1 } 100 ≤
        calculateSmartScore { orderEntry1 with accessCount := 5 } 100) ∧
    ((2 : Int) ≤ 30 ∧ (30 : Int) ≤ 100 ∧
      calculateSmartScore { orderEntry1 with lastAccessedAt := 2 } 100 ≤
        calculateSmartScore { orderEntry1 with lastAccessedAt := 30 } 100) :=
  ⟨⟨by decide, by decide,
      smart_score_monotonicity.1 orderEntry1 100 1 5 (by decide) (by decide)⟩,
    ⟨by decide, by decide,
      smart_score_monotonicity.2 orderEntry1 100 2 30 (by decide) (by decide)⟩⟩

/-- A state with both optional fields populated, for the round trip. -/
def rtEntry : CachedImage :=
  { url := "https://r.example/i.png", localPath := "cachedir/i.png",
    githubUrl := some "https://gh.example/i.png", size := 12, createdAt := 1,
    lastAccessedAt := 2, accessCount := 3, hash := some "abc123" }

def rtState : CacheState :=
  { settings := demoSettings
    cacheIndex := [("https://r.example/i.png", rtEntry)]
    cacheMetadata := { totalSize := 12, imageCount := 1, lastCleanup := 9, version := "1.0.0" }
    blobs := ["cachedir/i.png"] }

theorem index_roundtrip_witness :
    (rtState.cacheIndex.map Prod.fst).Nodup ∧
    ((loadFromDoc (initialState demoSettings 777) (saveDoc rtState)).cacheIndex =
        rtState.cacheIndex ∧
      (loadFromDoc (initialState demoSettings 777) (saveDoc rtState)).cacheMetadata =
        rtState.cacheMetadata) :=
  ⟨by decide, index_roundtrip rtState demoSettings 777 (by decide)⟩
